import Mathlib

/-!
# Verification of the `delaunay` repository (Bowyer–Watson triangulation)

Shallow embedding of `src/geometry.h` / `src/geometry.cpp` /
`src/delaunay.cpp`.  IEEE-754 doubles are modelled exactly: a value is a
rational number, `+∞`, `-∞` or `NaN`, and every arithmetic operation and
comparison follows the IEEE special-value rules (no rounding; all the
concrete inputs used to settle claims only involve dyadic rationals on
which double arithmetic is exact).
-/

namespace Geometry

/-- A double value: finite rational, `+∞`, `-∞` or `NaN`. -/
inductive F where
  | fin (q : ℚ)
  | pinf
  | ninf
  | nan
deriving DecidableEq

namespace F

/-- IEEE negation. -/
def neg : F → F
  | fin q => fin (-q)
  | pinf => ninf
  | ninf => pinf
  | nan => nan

/-- IEEE addition. -/
def add : F → F → F
  | nan, _ => nan
  | _, nan => nan
  | fin a, fin b => fin (a + b)
  | fin _, pinf => pinf
  | fin _, ninf => ninf
  | pinf, fin _ => pinf
  | ninf, fin _ => ninf
  | pinf, pinf => pinf
  | pinf, ninf => nan
  | ninf, pinf => nan
  | ninf, ninf => ninf

/-- IEEE subtraction. -/
def sub (x y : F) : F := add x (neg y)

/-- IEEE multiplication (`∞ * 0 = NaN`). -/
def mul : F → F → F
  | nan, _ => nan
  | _, nan => nan
  | fin a, fin b => fin (a * b)
  | fin a, pinf => if 0 < a then pinf else if a < 0 then ninf else nan
  | fin a, ninf => if 0 < a then ninf else if a < 0 then pinf else nan
  | pinf, fin b => if 0 < b then pinf else if b < 0 then ninf else nan
  | ninf, fin b => if 0 < b then ninf else if b < 0 then pinf else nan
  | pinf, pinf => pinf
  | pinf, ninf => ninf
  | ninf, pinf => ninf
  | ninf, ninf => pinf

/-- IEEE division (positive zero only: `x / 0` carries the sign of `x`). -/
def div : F → F → F
  | nan, _ => nan
  | _, nan => nan
  | fin a, fin b =>
      if b = 0 then (if 0 < a then pinf else if a < 0 then ninf else nan)
      else fin (a / b)
  | fin _, pinf => fin 0
  | fin _, ninf => fin 0
  | pinf, fin b => if 0 ≤ b then pinf else ninf
  | ninf, fin b => if 0 ≤ b then ninf else pinf
  | pinf, pinf => nan
  | pinf, ninf => nan
  | ninf, pinf => nan
  | ninf, ninf => nan

/-- IEEE `<` (false whenever `NaN` is involved). -/
def lt : F → F → Bool
  | nan, _ => false
  | _, nan => false
  | fin a, fin b => decide (a < b)
  | fin _, pinf => true
  | fin _, ninf => false
  | pinf, _ => false
  | ninf, pinf => true
  | ninf, fin _ => true
  | ninf, ninf => false

/-- IEEE `==` (false whenever `NaN` is involved). -/
def beq : F → F → Bool
  | nan, _ => false
  | _, nan => false
  | fin a, fin b => decide (a = b)
  | fin _, pinf => false
  | fin _, ninf => false
  | pinf, fin _ => false
  | ninf, fin _ => false
  | pinf, pinf => true
  | ninf, ninf => true
  | pinf, ninf => false
  | ninf, pinf => false

/-- IEEE `<=`. -/
def le (x y : F) : Bool := lt x y || beq x y

/-- `fabs`. -/
def fabs : F → F
  | fin q => fin |q|
  | pinf => pinf
  | ninf => pinf
  | nan => nan

/-- `std::min(a, b)` is `(b < a) ? b : a`. -/
def fmin (a b : F) : F := if lt b a then b else a

end F

open F (fin pinf ninf nan)

/-- `std::numeric_limits<double>::epsilon() = 2⁻⁵²` as an exact rational. -/
def machineEps : ℚ := 1 / 4503599627370496

/-- `class point { double x, y; }`. -/
structure point where
  x : F
  y : F
deriving DecidableEq

namespace point

/-- `point::operator==`: exact coordinate match, or both coordinate
differences at most machine epsilon. -/
def eq (s other : point) : Bool :=
  if F.beq s.x other.x && F.beq s.y other.y then true
  else
    F.le (F.fabs (F.sub s.x other.x)) (fin machineEps) &&
    F.le (F.fabs (F.sub s.y other.y)) (fin machineEps)

/-- `point::finite`: `fabs(x) != inf && fabs(y) != inf`. -/
def finite (s : point) : Bool :=
  !(F.beq (F.fabs s.x) pinf) && !(F.beq (F.fabs s.y) pinf)

/-- `point::slope`. -/
def slope (a b : point) : F :=
  if F.beq (F.sub a.x b.x) (fin 0) then pinf
  else F.div (F.sub a.y b.y) (F.sub a.x b.x)

/-- `point::midpoint`. -/
def midpoint (a b : point) : point :=
  ⟨F.div (F.add a.x b.x) (fin 2), F.div (F.add a.y b.y) (fin 2)⟩

/-- `point::distance_squared`. -/
def distance_squared (s a : point) : F :=
  let dx := F.sub s.x a.x
  let dy := F.sub s.y a.y
  F.add (F.mul dx dx) (F.mul dy dy)

end point

/-- `class edge { point a, b; }`. -/
structure edge where
  a : point
  b : point
deriving DecidableEq

/-- `class circle { point center; double radius; }`. -/
structure circle where
  center : point
  radius : F
deriving DecidableEq

namespace circle

/-- `circle::contains`: squared distance to the center strictly below
the stored radius value. -/
def contains (s : circle) (p : point) : Bool :=
  let dx := F.sub p.x s.center.x
  let dy := F.sub p.y s.center.y
  let dist := F.add (F.mul dx dx) (F.mul dy dy)
  F.lt dist s.radius

/-- `circle::infinite`. -/
def infinite (s : circle) : Bool := F.beq s.radius pinf

end circle

/-- `class triangle { point a, b, c; }`. -/
structure triangle where
  a : point
  b : point
  c : point
deriving DecidableEq

namespace triangle

/-- `triangle::valid`: all vertices finite and `|area| > epsilon`
(shoelace formula, halved). -/
def valid (t : triangle) : Bool :=
  if !(t.a.finite) || !(t.b.finite) || !(t.c.finite) then false
  else
    let area := F.div
      (F.sub (F.mul (F.sub t.b.x t.a.x) (F.sub t.c.y t.a.y))
             (F.mul (F.sub t.c.x t.a.x) (F.sub t.b.y t.a.y)))
      (fin 2)
    F.lt (fin machineEps) (F.fabs area)

/-- `triangle::has_vertex`. -/
def has_vertex (t : triangle) (p : point) : Bool :=
  point.eq t.a p || point.eq t.b p || point.eq t.c p

/-- `triangle::circumcircle`. -/
def circumcircle (t : triangle) : circle :=
  if !t.valid then ⟨⟨fin 0, fin 0⟩, pinf⟩
  else
    let slope_ab := point.slope t.a t.b
    let slope_bc := point.slope t.b t.c
    let slope_ac := point.slope t.a t.c
    let midpoint_1 := point.midpoint t.a t.b
    let slope_1 := slope_ab
    let midpoint_2 := point.midpoint t.b t.c
    let slope_2 := slope_bc
    let state :=
      if F.beq slope_1 (fin 0) then (point.midpoint t.a t.c, slope_ac, midpoint_2, slope_2)
      else if F.beq slope_2 (fin 0) then (midpoint_1, slope_1, point.midpoint t.a t.c, slope_ac)
      else (midpoint_1, slope_1, midpoint_2, slope_2)
    let m1 := F.div (fin (-1)) state.2.1
    let m2 := F.div (fin (-1)) state.2.2.2
    let b1 := F.sub state.1.y (F.mul m1 state.1.x)
    let b2 := F.sub state.2.2.1.y (F.mul m2 state.2.2.1.x)
    let x := F.div (F.sub b2 b1) (F.sub m1 m2)
    let y := F.add (F.mul m1 x) b1
    let center : point := ⟨x, y⟩
    let radius := F.fmin
      (F.fmin (point.distance_squared t.a center) (point.distance_squared t.b center))
      (point.distance_squared t.c center)
    ⟨center, radius⟩

/-- `triangle::edges`: `{(a,b), (b,c), (a,c)}` in that order. -/
def edges (t : triangle) : List edge := [⟨t.a, t.b⟩, ⟨t.b, t.c⟩, ⟨t.a, t.c⟩]

/-- `triangle::has_edge` (undirected, with tolerant point equality). -/
def has_edge (t : triangle) (e : edge) : Bool :=
  t.edges.any (fun v =>
    (point.eq v.a e.a && point.eq v.b e.b) || (point.eq v.a e.b && point.eq v.b e.a))

/-- `triangle::operator==`: positional tolerant equality. -/
def eq (s other : triangle) : Bool :=
  point.eq s.a other.a && point.eq s.b other.b && point.eq s.c other.c

end triangle

namespace delaunay

/-- `delaunay::super_triangle`: symbolic vertices `(-∞,-∞)`, `(0,+∞)`, `(+∞,0)`. -/
def super_triangle : triangle :=
  ⟨⟨ninf, ninf⟩, ⟨fin 0, pinf⟩, ⟨pinf, fin 0⟩⟩

/-- Inner block of `halfplane_contains`, case of a single finite vertex
(`f` finite, `v1`, `v2` infinite), as selected by the source's if-chain. -/
def hp1 (f v1 v2 p : point) : Bool :=
  if F.beq v1.y pinf || F.beq v2.y pinf then
    if F.beq v1.x pinf || F.beq v2.x pinf then
      F.lt (F.add f.y f.x) (F.add p.y p.x)
    else
      F.lt (F.sub f.y (F.mul (fin 3) f.x)) (F.sub p.y (F.mul (fin 3) p.x))
  else
    F.lt (F.sub p.y (F.div p.x (fin 3))) (F.sub f.y (F.div f.x (fin 3)))

/-- Inner block of `halfplane_contains`, case of a single infinite vertex
(`f` infinite, `v1`, `v2` finite), as selected by the source's if-chain. -/
def hp2 (f v1 v2 p : point) : Bool :=
  let m := point.slope v1 v2
  let b := F.sub v1.y (F.mul m v1.x)
  if F.beq f.y pinf then
    F.lt b (F.sub p.y (F.mul m p.x))
  else if F.beq f.x pinf then
    if F.le (fin 0) m then F.lt (F.sub p.y (F.mul m p.x)) b
    else F.lt b (F.sub p.y (F.mul m p.x))
  else
    if F.le (fin 1) m then F.lt b (F.sub p.y (F.mul m p.x))
    else F.lt (F.sub p.y (F.mul m p.x)) b

/-- `delaunay::halfplane_contains`: dispatch on the number of finite
vertices, selecting `(f, v1, v2)` exactly as the source's if-chains do
(the all-else branch mirrors the default-constructed `point()` values of
the C++, which is unreachable under each count). -/
def halfplane_contains (t : triangle) (p : point) : Bool :=
  let finite_points :=
    (if t.a.finite then 1 else 0) + (if t.b.finite then 1 else 0) +
      (if t.c.finite then 1 else 0)
  if finite_points = 0 then true
  else if finite_points = 1 then
    if t.a.finite then hp1 t.a t.b t.c p
    else if t.b.finite then hp1 t.b t.a t.c p
    else if t.c.finite then hp1 t.c t.a t.b p
    else hp1 ⟨fin 0, fin 0⟩ ⟨fin 0, fin 0⟩ ⟨fin 0, fin 0⟩ p
  else if finite_points = 2 then
    if !t.a.finite then hp2 t.a t.b t.c p
    else if !t.b.finite then hp2 t.b t.a t.c p
    else if !t.c.finite then hp2 t.c t.b t.a p
    else hp2 ⟨fin 0, fin 0⟩ ⟨fin 0, fin 0⟩ ⟨fin 0, fin 0⟩ p
  else false

/-- Whether a triangle is flagged "bad" for point `p`: finite circumcircle
containment, else the half-plane test. -/
def isBad (t : triangle) (p : point) : Bool :=
  let c := t.circumcircle
  if !c.infinite then c.contains p else halfplane_contains t p

/-- One iteration of the Bowyer–Watson insertion loop. -/
def insertPoint (triangulation : List triangle) (p : point) : List triangle :=
  let bad_set := triangulation.filter (fun t => isBad t p)
  let polygon := bad_set.enum.flatMap (fun it =>
    it.2.edges.filter (fun e =>
      !(bad_set.enum.any (fun jt => (jt.1 != it.1) && jt.2.has_edge e))))
  let remaining := triangulation.filter (fun t =>
    !(bad_set.any (fun b => triangle.eq b t)))
  remaining ++ polygon.map (fun e => ⟨e.a, e.b, p⟩)

/-- `delaunay::triangulate`: Bowyer–Watson over the input order, then strip
every triangle touching a super-triangle vertex. -/
def triangulate (points : List point) : List triangle :=
  let super := super_triangle
  let triangulation := points.foldl insertPoint [super]
  triangulation.filter (fun t =>
    !(t.has_vertex super.a || t.has_vertex super.b || t.has_vertex super.c))

end delaunay

/-- Convenience constructor for a point with finite rational coordinates. -/
def pt (a b : ℚ) : point := ⟨fin a, fin b⟩

/-- A vertex drawn from the processed input points or the super-triangle. -/
def goodVertex (S : List point) (v : point) : Prop :=
  v ∈ S ∨ v = delaunay.super_triangle.a ∨ v = delaunay.super_triangle.b ∨
    v = delaunay.super_triangle.c

/-- All three vertices of `t` are drawn from `S` or the super-triangle. -/
def goodTriangle (S : List point) (t : triangle) : Prop :=
  goodVertex S t.a ∧ goodVertex S t.b ∧ goodVertex S t.c

/-- The symbolic vertex `(−∞,−∞)` of §4.2. -/
def symA : point := ⟨ninf, ninf⟩

/-- The symbolic vertex `(0,+∞)` of §4.2. -/
def symB : point := ⟨fin 0, pinf⟩

/-- The symbolic vertex `(+∞,0)` of §4.2. -/
def symC : point := ⟨pinf, fin 0⟩

/-- A point with finite rational coordinates (the data model's notion of a
finite point). -/
def isRat (v : point) : Prop := ∃ qx qy : ℚ, v = pt qx qy

/-- A vertex that is one of the three super-triangle vertices. -/
def isSuperV (v : point) : Prop := v = symA ∨ v = symB ∨ v = symC

/-- A finite rational point on the line `A·x + B·y = C`. -/
def onLine (A B C : ℚ) (v : point) : Prop :=
  ∃ qx qy : ℚ, v = pt qx qy ∧ A * qx + B * qy = C

/-- Invariant of the triangulation state while inserting points that all lie
on one line: every vertex is a super vertex or a rational point of the line,
at least one vertex is a super vertex, and the vertices are pairwise
distinct. -/
def collTriangle (A B C : ℚ) (t : triangle) : Prop :=
  (isSuperV t.a ∨ onLine A B C t.a) ∧ (isSuperV t.b ∨ onLine A B C t.b) ∧
  (isSuperV t.c ∨ onLine A B C t.c) ∧
  (isSuperV t.a ∨ isSuperV t.b ∨ isSuperV t.c) ∧
  t.a ≠ t.b ∧ t.a ≠ t.c ∧ t.b ≠ t.c

/-- Every edge of `t` has at least one super-vertex endpoint. -/
def edgeSuper (t : triangle) : Prop := ∀ e ∈ t.edges, isSuperV e.a ∨ isSuperV e.b

/-- Every edge of `t` has two super-vertex endpoints. -/
def bothSuper (t : triangle) : Prop := ∀ e ∈ t.edges, isSuperV e.a ∧ isSuperV e.b

/-- The half-plane containment case analysis exactly as §4.2 of the spec
states it, classifying by how many of the triangle's vertices are finite:
with no finite vertex the circle contains all points; with one finite vertex
`f` the boundary line through `f` depends on which pair of symbolic points is
present; with two finite vertices the tangent line is the line through them
and the containment direction depends on which symbolic point is the third
vertex; any unmatched case returns not-contained. -/
def halfplane_spec (t : triangle) (p : point) : Bool :=
  let verts := [t.a, t.b, t.c]
  let fins := verts.filter (fun v => v.finite)
  let infs := verts.filter (fun v => !v.finite)
  match fins, infs with
  | [], _ => true
  | [f], [u, v] =>
    if (u = symB ∧ v = symC) ∨ (u = symC ∧ v = symB) then
      F.lt (F.add f.y f.x) (F.add p.y p.x)
    else if (u = symB ∧ v = symA) ∨ (u = symA ∧ v = symB) then
      F.lt (F.sub f.y (F.mul (fin 3) f.x)) (F.sub p.y (F.mul (fin 3) p.x))
    else if (u = symA ∧ v = symC) ∨ (u = symC ∧ v = symA) then
      F.lt (F.sub p.y (F.div p.x (fin 3))) (F.sub f.y (F.div f.x (fin 3)))
    else false
  | [v1, v2], [f] =>
    let m := point.slope v1 v2
    let b := F.sub v1.y (F.mul m v1.x)
    let val := F.sub p.y (F.mul m p.x)
    if f = symB then F.lt b val
    else if f = symC then
      (F.le (fin 0) m && F.lt val b) || (F.lt m (fin 0) && F.lt b val)
    else if f = symA then
      (F.le (fin 1) m && F.lt b val) || (F.lt m (fin 1) && F.lt val b)
    else false
  | _, _ => false

/-! ## Basic computation lemmas for `F` -/

@[simp] theorem F.add_fin (a b : ℚ) : F.add (fin a) (fin b) = fin (a + b) := rfl

@[simp] theorem F.neg_fin (a : ℚ) : F.neg (fin a) = fin (-a) := rfl

@[simp] theorem F.sub_fin (a b : ℚ) : F.sub (fin a) (fin b) = fin (a - b) := by
  simp [F.sub, ← sub_eq_add_neg]

@[simp] theorem F.mul_fin (a b : ℚ) : F.mul (fin a) (fin b) = fin (a * b) := rfl

@[simp] theorem F.fabs_fin (a : ℚ) : F.fabs (fin a) = fin |a| := rfl

@[simp] theorem F.beq_fin (a b : ℚ) : F.beq (fin a) (fin b) = decide (a = b) := rfl

@[simp] theorem F.lt_fin (a b : ℚ) : F.lt (fin a) (fin b) = decide (a < b) := rfl

theorem F.beq_comm (x y : F) : F.beq x y = F.beq y x := by
  cases x <;> cases y <;> simp [F.beq, eq_comm]

theorem F.fabs_sub_comm (x y : F) : F.fabs (F.sub x y) = F.fabs (F.sub y x) := by
  cases x <;> cases y <;>
    simp [F.sub, F.add, F.neg, F.fabs, ← sub_eq_add_neg, abs_sub_comm]

theorem F.beq_refl_of_ne_nan (x : F) (h : x ≠ nan) : F.beq x x = true := by
  cases x <;> simp_all [F.beq]

/-! ## Claim theorems -/

section ClaimTheorems

attribute [local semireducible] Rat.add Rat.mul Rat.sub Rat.inv

/-- **C10.** `point::operator==` is reflexive (on points with well-defined,
non-`NaN` coordinates, the only points of the data model) and symmetric, but
not transitive: `(0,0) == (ε,0)` and `(ε,0) == (2ε,0)` hold while
`(0,0) == (2ε,0)` fails, `ε` being machine epsilon. -/
theorem point_eq_refl_symm_not_trans :
    (∀ p : point, p.x ≠ nan → p.y ≠ nan → point.eq p p = true) ∧
    (∀ p q : point, point.eq p q = point.eq q p) ∧
    (point.eq (pt 0 0) (pt machineEps 0) = true ∧
      point.eq (pt machineEps 0) (pt (2 * machineEps) 0) = true ∧
      point.eq (pt 0 0) (pt (2 * machineEps) 0) = false) := by
  refine ⟨fun p hx hy => ?_, fun p q => ?_, by decide⟩
  · simp [point.eq, F.beq_refl_of_ne_nan _ hx, F.beq_refl_of_ne_nan _ hy]
  · unfold point.eq
    rw [F.beq_comm p.x q.x, F.beq_comm p.y q.y,
      F.fabs_sub_comm p.x q.x, F.fabs_sub_comm p.y q.y]

/-- Witness for C10: the reflexivity conjunct applied at the concrete
point `(1, 2)`. -/
theorem point_eq_refl_symm_not_trans_witness : point.eq (pt 1 2) (pt 1 2) = true :=
  point_eq_refl_symm_not_trans.1 (pt 1 2) (by decide) (by decide)

/-- **C9.** A triangle whose three vertices all pass the `finite()` test is
never reported by `halfplane_contains`, whatever the query point. -/
theorem halfplane_finite_triangle_false (t : triangle) (p : point)
    (ha : t.a.finite = true) (hb : t.b.finite = true) (hc : t.c.finite = true) :
    delaunay.halfplane_contains t p = false := by
  simp [delaunay.halfplane_contains, ha, hb, hc]

/-- Witness for C9: the degenerate all-finite triangle `(0,0),(1,1),(2,2)`
is not half-plane-reported even for an interior-looking query point. -/
theorem halfplane_finite_triangle_false_witness :
    delaunay.halfplane_contains ⟨pt 0 0, pt 1 1, pt 2 2⟩ (pt 5 5) = false :=
  halfplane_finite_triangle_false _ _ (by decide) (by decide) (by decide)

/-- Counterexample for C2: the sentinel circumcircle of the invalid
(collinear) triangle `(0,0),(1,1),(2,2)` *does* register the finite point
`(0,0)` as contained by the ordinary contains-test, contradicting the claim
that it never contains any finite point. -/
theorem sentinel_contains_counterexample :
    triangle.valid ⟨pt 0 0, pt 1 1, pt 2 2⟩ = false ∧
    point.finite (pt 0 0) = true ∧
    (triangle.circumcircle ⟨pt 0 0, pt 1 1, pt 2 2⟩).contains (pt 0 0) = true := by
  decide

/-- **C2 (amended).** An invalid triangle's circumcircle is the sentinel
circle centered at the origin with infinite radius, and the ordinary
contains-test *does* report points as contained, rather than never
containing any: every point whose rational coordinates are at most
`10^150` in magnitude is reported contained (within that bound the
squared-distance computation stays finite even in 64-bit doubles — each
square is below `10^300 < 1.8·10^308` — and any finite value is `< ∞`).
The bound matters: for coordinates beyond about `1.34·10^154` the double
product `dx*dx` overflows to `+∞` and the `∞ < ∞` comparison is false, so
containment is asserted only in the overflow-free range. Callers must
therefore branch on `infinite()` and use the half-plane path instead. -/
theorem sentinel_circle_contains_bounded_points (t : triangle)
    (h : t.valid = false) (p : point) (qx qy : ℚ)
    (hx : p.x = fin qx) (hy : p.y = fin qy)
    (_hbx : |qx| ≤ 10 ^ 150) (_hby : |qy| ≤ 10 ^ 150) :
    t.circumcircle = ⟨⟨fin 0, fin 0⟩, pinf⟩ ∧
    t.circumcircle.contains p = true := by
  have hcc : t.circumcircle = ⟨⟨fin 0, fin 0⟩, pinf⟩ := by
    simp [triangle.circumcircle, h]
  refine ⟨hcc, ?_⟩
  simp [hcc, circle.contains, hx, hy, F.lt]

/-- Witness for C2's amended theorem at the collinear triangle
`(0,0),(1,1),(2,2)` and the point `(7, -3)`. -/
theorem sentinel_circle_contains_bounded_points_witness :
    triangle.circumcircle ⟨pt 0 0, pt 1 1, pt 2 2⟩ = ⟨⟨fin 0, fin 0⟩, pinf⟩ ∧
    (triangle.circumcircle ⟨pt 0 0, pt 1 1, pt 2 2⟩).contains (pt 7 (-3)) = true :=
  sentinel_circle_contains_bounded_points _ (by decide) _ 7 (-3) rfl rfl
    (by norm_num) (by norm_num)

/-- **C8 (code bug).** The right triangle `(0,0),(0,1),(1,0)` has signed
area `1/2 ≠ 0`, yet `triangulate` returns *zero* triangles instead of one:
when the first two points share an x-coordinate, the half-plane test for a
triangle over that vertical edge computes `slope = ∞` and an intercept of
`NaN` or `±∞`, so the strict comparisons all fail, the cavity of the third
point never exposes the vertical edge, and no all-finite triangle is created. -/
theorem triangulate_right_triangle_empty :
    delaunay.triangulate [pt 0 0, pt 0 1, pt 1 0] = [] := by decide

/-- **C1 (code bug).** For the input `S = {(0,0), (1,0), (1/2, 2⁻⁵³)}`
(three non-collinear finite points whose area `2⁻⁵⁴` is below machine
epsilon), `triangulate` outputs exactly the degenerate triangle on those
vertices; it fails `valid()`, so its `circumcircle()` is the sentinel with
infinite radius, and that circle's `contains` test reports the input point
`(0,0) ∈ S` (indeed every input point) as strictly inside — violating the
Delaunay property the repository's own `valid_triangulation` test checks. -/
theorem delaunay_property_fails_on_sliver_input :
    delaunay.triangulate [pt 0 0, pt 1 0, pt (1/2) (1/9007199254740992)] =
      [⟨pt 0 0, pt 1 0, pt (1/2) (1/9007199254740992)⟩] ∧
    ((delaunay.triangulate [pt 0 0, pt 1 0, pt (1/2) (1/9007199254740992)]).map
        (fun t => (t.circumcircle).contains (pt 0 0))) = [true] := by
  constructor <;> decide

/-! ### Structure of one Bowyer–Watson insertion -/

theorem mem_of_mem_enum {α : Type} {l : List α} {x : ℕ × α} (h : x ∈ l.enum) :
    x.2 ∈ l :=
  List.getElem?_mem (List.mem_enum_iff_getElem?.1 h)

theorem mem_insertPoint {T : List triangle} {p : point} {t' : triangle}
    (h : t' ∈ delaunay.insertPoint T p) :
    t' ∈ T ∨ ∃ t ∈ T, delaunay.isBad t p = true ∧
      ∃ e ∈ t.edges, t' = ⟨e.a, e.b, p⟩ := by
  simp only [delaunay.insertPoint] at h
  rcases List.mem_append.1 h with h | h
  · exact Or.inl (List.mem_filter.1 h).1
  · rcases List.mem_map.1 h with ⟨e, he, rfl⟩
    rcases List.mem_flatMap.1 he with ⟨it, hit, hef⟩
    have hbad := List.mem_filter.1 (mem_of_mem_enum hit)
    exact Or.inr ⟨it.2, hbad.1, hbad.2, e, (List.mem_filter.1 hef).1, rfl⟩

theorem edge_endpoints {t : triangle} {e : edge} (h : e ∈ t.edges) :
    (e.a = t.a ∨ e.a = t.b ∨ e.a = t.c) ∧ (e.b = t.a ∨ e.b = t.b ∨ e.b = t.c) := by
  simp only [triangle.edges, List.mem_cons, List.not_mem_nil, or_false] at h
  rcases h with rfl | rfl | rfl <;> simp

theorem foldl_insert_good {S : List point} :
    ∀ (pts : List point) (T : List triangle),
      (∀ q ∈ pts, q ∈ S) → (∀ t ∈ T, goodTriangle S t) →
      ∀ t ∈ pts.foldl delaunay.insertPoint T, goodTriangle S t := by
  intro pts
  induction pts with
  | nil => exact fun T _ hT => hT
  | cons p rest ih =>
    intro T hpts hT t ht
    refine ih (delaunay.insertPoint T p)
      (fun q hq => hpts q (List.mem_cons_of_mem _ hq)) ?_ t ht
    intro t' ht'
    rcases mem_insertPoint ht' with h | ⟨u, hu, _, e, he, rfl⟩
    · exact hT t' h
    · have hg := hT u hu
      have hep := edge_endpoints he
      have hp : goodVertex S p := Or.inl (hpts p (List.mem_cons_self _ _))
      refine ⟨?_, ?_, hp⟩
      · rcases hep.1 with h | h | h <;> rw [h]
        exacts [hg.1, hg.2.1, hg.2.2]
      · rcases hep.2 with h | h | h <;> rw [h]
        exacts [hg.1, hg.2.1, hg.2.2]

/-- Core closure fact: each vertex of an output triangle is literally a
member of the input list. -/
theorem triangulate_vertex_mem (points : List point) (t : triangle)
    (ht : t ∈ delaunay.triangulate points) :
    t.a ∈ points ∧ t.b ∈ points ∧ t.c ∈ points := by
  simp only [delaunay.triangulate] at ht
  have hmem := List.mem_filter.1 ht
  have hgood : goodTriangle points t :=
    foldl_insert_good points [delaunay.super_triangle] (fun q hq => hq)
      (by
        intro u hu
        rcases List.mem_singleton.1 hu with rfl
        exact ⟨Or.inr (Or.inl rfl), Or.inr (Or.inr (Or.inl rfl)),
          Or.inr (Or.inr (Or.inr rfl))⟩)
      t hmem.1
  have hfilter := hmem.2
  simp only [Bool.not_eq_true', Bool.or_eq_false_iff] at hfilter
  have noSuper : ∀ v, (v = t.a ∨ v = t.b ∨ v = t.c) →
      (v = delaunay.super_triangle.a ∨ v = delaunay.super_triangle.b ∨
        v = delaunay.super_triangle.c) → False := by
    rintro v hvpos (hs | hs | hs) <;> subst hs
    · apply absurd hfilter.1.1
      rcases hvpos with h | h | h <;>
        simp [triangle.has_vertex, ← h, point.eq, F.beq, delaunay.super_triangle]
    · apply absurd hfilter.1.2
      rcases hvpos with h | h | h <;>
        simp [triangle.has_vertex, ← h, point.eq, F.beq, delaunay.super_triangle]
    · apply absurd hfilter.2
      rcases hvpos with h | h | h <;>
        simp [triangle.has_vertex, ← h, point.eq, F.beq, delaunay.super_triangle]
  refine ⟨?_, ?_, ?_⟩
  · rcases hgood.1 with h | h | h | h
    · exact h
    · exact (noSuper t.a (Or.inl rfl) (Or.inl h)).elim
    · exact (noSuper t.a (Or.inl rfl) (Or.inr (Or.inl h))).elim
    · exact (noSuper t.a (Or.inl rfl) (Or.inr (Or.inr h))).elim
  · rcases hgood.2.1 with h | h | h | h
    · exact h
    · exact (noSuper t.b (Or.inr (Or.inl rfl)) (Or.inl h)).elim
    · exact (noSuper t.b (Or.inr (Or.inl rfl)) (Or.inr (Or.inl h))).elim
    · exact (noSuper t.b (Or.inr (Or.inl rfl)) (Or.inr (Or.inr h))).elim
  · rcases hgood.2.2 with h | h | h | h
    · exact h
    · exact (noSuper t.c (Or.inr (Or.inr rfl)) (Or.inl h)).elim
    · exact (noSuper t.c (Or.inr (Or.inr rfl)) (Or.inr (Or.inl h))).elim
    · exact (noSuper t.c (Or.inr (Or.inr rfl)) (Or.inr (Or.inr h))).elim

/-- **C4.** Every vertex of every triangle returned by `triangulate` is
(an exact copy of) a member of the input sequence: no phantom vertices,
and no super-triangle vertex survives the final filter. -/
theorem output_vertex_closure (points : List point) (t : triangle)
    (ht : t ∈ delaunay.triangulate points) :
    t.a ∈ points ∧ t.b ∈ points ∧ t.c ∈ points :=
  triangulate_vertex_mem points t ht

/-- Witness for C4 at the input `[(0,0), (1,0), (0,1)]`, whose output is the
single triangle on those three vertices. -/
theorem output_vertex_closure_witness :
    (⟨pt 0 0, pt 1 0, pt 0 1⟩ : triangle).a ∈ [pt 0 0, pt 1 0, pt 0 1] ∧
    (⟨pt 0 0, pt 1 0, pt 0 1⟩ : triangle).b ∈ [pt 0 0, pt 1 0, pt 0 1] ∧
    (⟨pt 0 0, pt 1 0, pt 0 1⟩ : triangle).c ∈ [pt 0 0, pt 1 0, pt 0 1] :=
  output_vertex_closure [pt 0 0, pt 1 0, pt 0 1] ⟨pt 0 0, pt 1 0, pt 0 1⟩
    (by decide)

/-- Counterexample for C3: on the near-collinear input
`{(0,0), (1,0), (1/2, 2⁻⁵³)}` the unique output triangle fails `valid()`
(its area `2⁻⁵⁴` is below machine epsilon), so not every output triangle is
valid. -/
theorem output_validity_counterexample :
    (delaunay.triangulate [pt 0 0, pt 1 0, pt (1/2) (1/9007199254740992)]).map
      triangle.valid = [false] := by decide

/-- **C3 (amended).** When every input point is finite, every vertex of every
output triangle passes `finite()`; the area half of `valid()` is *not*
guaranteed — near-collinear inputs can emit a degenerate (area `<= epsilon`)
triangle. -/
theorem output_vertices_finite (points : List point)
    (hfin : ∀ q ∈ points, q.finite = true) (t : triangle)
    (ht : t ∈ delaunay.triangulate points) :
    t.a.finite = true ∧ t.b.finite = true ∧ t.c.finite = true := by
  obtain ⟨ha, hb, hc⟩ := triangulate_vertex_mem points t ht
  exact ⟨hfin _ ha, hfin _ hb, hfin _ hc⟩

/-- Witness for C3's amended theorem at the input `[(0,0), (1,0), (0,1)]`. -/
theorem output_vertices_finite_witness :
    (⟨pt 0 0, pt 1 0, pt 0 1⟩ : triangle).a.finite = true ∧
    (⟨pt 0 0, pt 1 0, pt 0 1⟩ : triangle).b.finite = true ∧
    (⟨pt 0 0, pt 1 0, pt 0 1⟩ : triangle).c.finite = true :=
  output_vertices_finite [pt 0 0, pt 1 0, pt 0 1] (by decide)
    ⟨pt 0 0, pt 1 0, pt 0 1⟩ (by decide)

/-! ### Half-plane test vs the §4.2 case analysis -/

theorem slope_pt_vertical (a b d : ℚ) : point.slope (pt a b) (pt a d) = pinf := by
  simp [point.slope, pt]

theorem slope_pt_of_ne {a c : ℚ} (b d : ℚ) (h : a ≠ c) :
    point.slope (pt a b) (pt c d) = fin ((b - d) / (a - c)) := by
  have hne : a - c ≠ 0 := sub_ne_zero_of_ne h
  simp [point.slope, pt, hne, F.div]

theorem slope_comm (a b c d : ℚ) :
    point.slope (pt a b) (pt c d) = point.slope (pt c d) (pt a b) := by
  by_cases hac : a = c
  · subst hac
    rw [slope_pt_vertical, slope_pt_vertical]
  · rw [slope_pt_of_ne b d hac, slope_pt_of_ne d b (Ne.symm hac)]
    congr 1
    rw [div_eq_div_iff (sub_ne_zero_of_ne hac) (sub_ne_zero_of_ne (Ne.symm hac))]
    ring

theorem intercept_swap (a b c d : ℚ) :
    F.sub (pt a b).y (F.mul (point.slope (pt a b) (pt c d)) (pt a b).x) =
      F.sub (pt c d).y (F.mul (point.slope (pt c d) (pt a b)) (pt c d).x) := by
  by_cases hac : a = c
  · subst hac
    rw [slope_pt_vertical, slope_pt_vertical]
    show F.sub (fin b) (F.mul pinf (fin a)) = F.sub (fin d) (F.mul pinf (fin a))
    rcases lt_trichotomy 0 a with h | h | h
    · simp [F.mul, h, F.sub, F.add, F.neg]
    · simp [F.mul, ← h, F.sub, F.add, F.neg]
    · simp [F.mul, h, not_lt_of_lt h, F.sub, F.add, F.neg]
  · rw [slope_pt_of_ne b d hac, slope_pt_of_ne d b (Ne.symm hac)]
    have hm : (d - b) / (c - a) = (b - d) / (a - c) := by
      rw [div_eq_div_iff (sub_ne_zero_of_ne (Ne.symm hac)) (sub_ne_zero_of_ne hac)]
      ring
    rw [hm]
    show F.sub (fin b) (F.mul (fin ((b - d) / (a - c))) (fin a)) =
      F.sub (fin d) (F.mul (fin ((b - d) / (a - c))) (fin c))
    simp only [F.mul_fin, F.sub_fin]
    congr 1
    have hne : a - c ≠ 0 := sub_ne_zero_of_ne hac
    field_simp
    ring

theorem slope_is_fin_or_pinf (a b c d : ℚ) :
    (∃ q, point.slope (pt a b) (pt c d) = fin q) ∨
      point.slope (pt a b) (pt c d) = pinf := by
  by_cases h : a = c
  · right; subst h; exact slope_pt_vertical a b d
  · left; exact ⟨_, slope_pt_of_ne b d h⟩

theorem ite_le_eq_or (c : ℚ) (m : F) (hm : (∃ q, m = fin q) ∨ m = pinf)
    (u v : Bool) :
    (if F.le (fin c) m then u else v) =
      ((F.le (fin c) m && u) || (F.lt m (fin c) && v)) := by
  rcases hm with ⟨q, rfl⟩ | rfl
  · by_cases h : c ≤ q
    · have h1 : F.le (fin c) (fin q) = true := by
        rcases lt_or_eq_of_le h with h' | h' <;> simp [F.le, F.lt, F.beq, h']
      have h2 : F.lt (fin q) (fin c) = false := by
        simp [F.lt, not_lt_of_le h]
      simp [h1, h2]
    · have hlt : q < c := lt_of_not_le h
      have h1 : F.le (fin c) (fin q) = false := by
        simp [F.le, F.lt, F.beq, lt_asymm hlt, ne_of_gt hlt]
      have h2 : F.lt (fin q) (fin c) = true := by
        simp [F.lt, hlt]
      simp [h1, h2]
  · simp [F.le, F.lt, F.beq]

theorem hp_one_finite_a (f v1 v2 p : point) (hf : f.finite = true)
    (h1 : v1.finite = false) (h2 : v2.finite = false) :
    delaunay.halfplane_contains ⟨f, v1, v2⟩ p = delaunay.hp1 f v1 v2 p := by
  simp [delaunay.halfplane_contains, hf, h1, h2]

theorem hp_one_finite_b (f v1 v2 p : point) (hf : f.finite = true)
    (h1 : v1.finite = false) (h2 : v2.finite = false) :
    delaunay.halfplane_contains ⟨v1, f, v2⟩ p = delaunay.hp1 f v1 v2 p := by
  simp [delaunay.halfplane_contains, hf, h1, h2]

theorem hp_one_finite_c (f v1 v2 p : point) (hf : f.finite = true)
    (h1 : v1.finite = false) (h2 : v2.finite = false) :
    delaunay.halfplane_contains ⟨v1, v2, f⟩ p = delaunay.hp1 f v1 v2 p := by
  simp [delaunay.halfplane_contains, hf, h1, h2]

theorem hp_two_finite_a (f v1 v2 p : point) (hf : f.finite = false)
    (h1 : v1.finite = true) (h2 : v2.finite = true) :
    delaunay.halfplane_contains ⟨f, v1, v2⟩ p = delaunay.hp2 f v1 v2 p := by
  simp [delaunay.halfplane_contains, hf, h1, h2]

theorem hp_two_finite_b (f v1 v2 p : point) (hf : f.finite = false)
    (h1 : v1.finite = true) (h2 : v2.finite = true) :
    delaunay.halfplane_contains ⟨v1, f, v2⟩ p = delaunay.hp2 f v1 v2 p := by
  simp [delaunay.halfplane_contains, hf, h1, h2]

theorem hp_two_finite_c (f v1 v2 p : point) (hf : f.finite = false)
    (h1 : v1.finite = true) (h2 : v2.finite = true) :
    delaunay.halfplane_contains ⟨v1, v2, f⟩ p = delaunay.hp2 f v2 v1 p := by
  simp [delaunay.halfplane_contains, hf, h1, h2]

theorem hp2_swap (f : point) (a b c d : ℚ) (p : point) :
    delaunay.hp2 f (pt c d) (pt a b) p = delaunay.hp2 f (pt a b) (pt c d) p := by
  simp only [delaunay.hp2]
  rw [intercept_swap c d a b, slope_comm c d a b]

theorem hp2_C_spec (a b c d : ℚ) (p : point) :
    delaunay.hp2 symC (pt a b) (pt c d) p =
      ((F.le (fin 0) (point.slope (pt a b) (pt c d)) &&
          F.lt (F.sub p.y (F.mul (point.slope (pt a b) (pt c d)) p.x))
            (F.sub (pt a b).y
              (F.mul (point.slope (pt a b) (pt c d)) (pt a b).x))) ||
        (F.lt (point.slope (pt a b) (pt c d)) (fin 0) &&
          F.lt (F.sub (pt a b).y
              (F.mul (point.slope (pt a b) (pt c d)) (pt a b).x))
            (F.sub p.y (F.mul (point.slope (pt a b) (pt c d)) p.x)))) := by
  show (if F.le (fin 0) (point.slope (pt a b) (pt c d)) then _ else _) = _
  rw [ite_le_eq_or 0 _ (slope_is_fin_or_pinf a b c d)]

theorem hp2_A_spec (a b c d : ℚ) (p : point) :
    delaunay.hp2 symA (pt a b) (pt c d) p =
      ((F.le (fin 1) (point.slope (pt a b) (pt c d)) &&
          F.lt (F.sub (pt a b).y
              (F.mul (point.slope (pt a b) (pt c d)) (pt a b).x))
            (F.sub p.y (F.mul (point.slope (pt a b) (pt c d)) p.x))) ||
        (F.lt (point.slope (pt a b) (pt c d)) (fin 1) &&
          F.lt (F.sub p.y (F.mul (point.slope (pt a b) (pt c d)) p.x))
            (F.sub (pt a b).y
              (F.mul (point.slope (pt a b) (pt c d)) (pt a b).x)))) := by
  show (if F.le (fin 1) (point.slope (pt a b) (pt c d)) then _ else _) = _
  rw [ite_le_eq_or 1 _ (slope_is_fin_or_pinf a b c d)]

/-- **C7.** For every triangle whose vertices are drawn from the three
symbolic infinite points plus finite (rational-coordinate) vertices — with
the infinite vertices distinct, as in §4.2's enumeration — and every finite
query point, `halfplane_contains` returns exactly the result of the §4.2
case analysis (`halfplane_spec`). -/
theorem halfplane_contains_matches_spec (t : triangle) (p : point)
    (hp : isRat p)
    (ha : t.a = symA ∨ t.a = symB ∨ t.a = symC ∨ isRat t.a)
    (hb : t.b = symA ∨ t.b = symB ∨ t.b = symC ∨ isRat t.b)
    (hc : t.c = symA ∨ t.c = symB ∨ t.c = symC ∨ isRat t.c)
    (hab : t.a.finite = false → t.b.finite = false → t.a ≠ t.b)
    (hac : t.a.finite = false → t.c.finite = false → t.a ≠ t.c)
    (hbc : t.b.finite = false → t.c.finite = false → t.b ≠ t.c) :
    delaunay.halfplane_contains t p = halfplane_spec t p := by
  obtain ⟨ta, tb, tc⟩ := t
  obtain ⟨px, py, rfl⟩ := hp
  simp only at ha hb hc hab hac hbc
  rcases ha with rfl | rfl | rfl | ⟨a1, a2, rfl⟩
  · rcases hb with rfl | rfl | rfl | ⟨b1, b2, rfl⟩
    · rcases hc with rfl | rfl | rfl | ⟨c1, c2, rfl⟩
      · exact absurd rfl (hab rfl rfl)
      · exact absurd rfl (hab rfl rfl)
      · exact absurd rfl (hab rfl rfl)
      · exact absurd rfl (hab rfl rfl)
    · rcases hc with rfl | rfl | rfl | ⟨c1, c2, rfl⟩
      · exact absurd rfl (hac rfl rfl)
      · exact absurd rfl (hbc rfl rfl)
      · rfl
      · rfl
    · rcases hc with rfl | rfl | rfl | ⟨c1, c2, rfl⟩
      · exact absurd rfl (hac rfl rfl)
      · rfl
      · exact absurd rfl (hbc rfl rfl)
      · rfl
    · rcases hc with rfl | rfl | rfl | ⟨c1, c2, rfl⟩
      · exact absurd rfl (hac rfl rfl)
      · rfl
      · rfl
      · exact (hp_two_finite_a _ _ _ _ (by rfl) (by rfl) (by rfl)).trans (hp2_A_spec _ _ _ _ _)
  · rcases hb with rfl | rfl | rfl | ⟨b1, b2, rfl⟩
    · rcases hc with rfl | rfl | rfl | ⟨c1, c2, rfl⟩
      · exact absurd rfl (hbc rfl rfl)
      · exact absurd rfl (hac rfl rfl)
      · rfl
      · rfl
    · rcases hc with rfl | rfl | rfl | ⟨c1, c2, rfl⟩
      · exact absurd rfl (hab rfl rfl)
      · exact absurd rfl (hab rfl rfl)
      · exact absurd rfl (hab rfl rfl)
      · exact absurd rfl (hab rfl rfl)
    · rcases hc with rfl | rfl | rfl | ⟨c1, c2, rfl⟩
      · rfl
      · exact absurd rfl (hac rfl rfl)
      · exact absurd rfl (hbc rfl rfl)
      · rfl
    · rcases hc with rfl | rfl | rfl | ⟨c1, c2, rfl⟩
      · rfl
      · exact absurd rfl (hac rfl rfl)
      · rfl
      · rfl
  · rcases hb with rfl | rfl | rfl | ⟨b1, b2, rfl⟩
    · rcases hc with rfl | rfl | rfl | ⟨c1, c2, rfl⟩
      · exact absurd rfl (hbc rfl rfl)
      · rfl
      · exact absurd rfl (hac rfl rfl)
      · rfl
    · rcases hc with rfl | rfl | rfl | ⟨c1, c2, rfl⟩
      · rfl
      · exact absurd rfl (hbc rfl rfl)
      · exact absurd rfl (hac rfl rfl)
      · rfl
    · rcases hc with rfl | rfl | rfl | ⟨c1, c2, rfl⟩
      · exact absurd rfl (hab rfl rfl)
      · exact absurd rfl (hab rfl rfl)
      · exact absurd rfl (hab rfl rfl)
      · exact absurd rfl (hab rfl rfl)
    · rcases hc with rfl | rfl | rfl | ⟨c1, c2, rfl⟩
      · rfl
      · rfl
      · exact absurd rfl (hac rfl rfl)
      · exact (hp_two_finite_a _ _ _ _ (by rfl) (by rfl) (by rfl)).trans (hp2_C_spec _ _ _ _ _)
  · rcases hb with rfl | rfl | rfl | ⟨b1, b2, rfl⟩
    · rcases hc with rfl | rfl | rfl | ⟨c1, c2, rfl⟩
      · exact absurd rfl (hbc rfl rfl)
      · rfl
      · rfl
      · exact (hp_two_finite_b _ _ _ _ (by rfl) (by rfl) (by rfl)).trans (hp2_A_spec _ _ _ _ _)
    · rcases hc with rfl | rfl | rfl | ⟨c1, c2, rfl⟩
      · rfl
      · exact absurd rfl (hbc rfl rfl)
      · rfl
      · rfl
    · rcases hc with rfl | rfl | rfl | ⟨c1, c2, rfl⟩
      · rfl
      · rfl
      · exact absurd rfl (hbc rfl rfl)
      · exact (hp_two_finite_b _ _ _ _ (by rfl) (by rfl) (by rfl)).trans (hp2_C_spec _ _ _ _ _)
    · rcases hc with rfl | rfl | rfl | ⟨c1, c2, rfl⟩
      · exact ((hp_two_finite_c _ _ _ _ (by rfl) (by rfl) (by rfl)).trans (hp2_swap _ _ _ _ _ _)).trans (hp2_A_spec _ _ _ _ _)
      · exact ((hp_two_finite_c _ _ _ _ (by rfl) (by rfl) (by rfl)).trans (hp2_swap _ _ _ _ _ _)).trans rfl
      · exact ((hp_two_finite_c _ _ _ _ (by rfl) (by rfl) (by rfl)).trans (hp2_swap _ _ _ _ _ _)).trans (hp2_C_spec _ _ _ _ _)
      · rfl

/-! ### Circumcircle geometry for valid triangles -/

theorem F.sub_nan_right (x : F) : F.sub x nan = nan := by cases x <;> rfl

theorem F.sub_nan_left (x : F) : F.sub nan x = nan := by cases x <;> rfl

theorem F.mul_nan_right (x : F) : F.mul x nan = nan := by cases x <;> rfl

theorem F.mul_nan_left (x : F) : F.mul nan x = nan := by cases x <;> rfl

theorem F.div_nan_left (x : F) : F.div nan x = nan := by cases x <;> rfl

theorem F.lt_nan_right (x : F) : F.lt x nan = false := by cases x <;> rfl

theorem F.fabs_nan : F.fabs nan = nan := rfl

theorem finite_rat (qx qy : ℚ) : point.finite (pt qx qy) = true := rfl

theorem fin_or_nan_of_finite {x y : F} (h : point.finite ⟨x, y⟩ = true) :
    ((∃ q, x = fin q) ∨ x = nan) ∧ ((∃ q, y = fin q) ∨ y = nan) := by
  cases x <;> cases y <;>
    simp only [point.finite, F.fabs, F.beq, Bool.and_eq_true, Bool.not_eq_true',
      Bool.not_true, Bool.and_false, Bool.false_and] at h <;>
    first
      | exact ⟨Or.inl ⟨_, rfl⟩, Or.inl ⟨_, rfl⟩⟩
      | exact ⟨Or.inl ⟨_, rfl⟩, Or.inr rfl⟩
      | exact ⟨Or.inr rfl, Or.inl ⟨_, rfl⟩⟩
      | exact ⟨Or.inr rfl, Or.inr rfl⟩
      | simp_all

theorem valid_imp_finite {t : triangle} (h : t.valid = true) :
    t.a.finite = true ∧ t.b.finite = true ∧ t.c.finite = true := by
  by_cases hfa : t.a.finite = true <;> by_cases hfb : t.b.finite = true <;>
    by_cases hfc : t.c.finite = true <;>
    simp_all [triangle.valid]

/-- A triangle that passes `valid()` has rational coordinates and a non-zero
shoelace value. -/
theorem valid_rat {t : triangle} (h : t.valid = true) :
    ∃ ax ay bx bz cx cy : ℚ,
      t = ⟨pt ax ay, pt bx bz, pt cx cy⟩ ∧
      (bx - ax) * (cy - ay) - (cx - ax) * (bz - ay) ≠ 0 := by
  obtain ⟨hfa, hfb, hfc⟩ := valid_imp_finite h
  obtain ⟨⟨xa, ya⟩, ⟨xb, yb⟩, ⟨xc, yc⟩⟩ := t
  obtain ⟨ha1, ha2⟩ := fin_or_nan_of_finite hfa
  obtain ⟨hb1, hb2⟩ := fin_or_nan_of_finite hfb
  obtain ⟨hc1, hc2⟩ := fin_or_nan_of_finite hfc
  simp [triangle.valid, hfa, hfb, hfc] at h
  rcases ha1 with ⟨ax, rfl⟩ | rfl <;> rcases ha2 with ⟨ay, rfl⟩ | rfl <;>
    rcases hb1 with ⟨bx, rfl⟩ | rfl <;> rcases hb2 with ⟨bz, rfl⟩ | rfl <;>
      rcases hc1 with ⟨cx, rfl⟩ | rfl <;> rcases hc2 with ⟨cy, rfl⟩ | rfl <;>
    first
      | (simp only [F.sub_nan_right, F.sub_nan_left, F.mul_nan_right,
           F.mul_nan_left, F.div_nan_left, F.fabs_nan, F.lt_nan_right] at h
         exact absurd h (by simp))
      | (refine ⟨_, _, _, _, _, _, rfl, ?_⟩
         simp only [F.sub_fin, F.mul_fin] at h
         intro hz
         rw [hz] at h
         norm_num [F.div, F.fabs, F.lt, machineEps] at h)

theorem equidist_core (px py qx qy X Y : ℚ)
    (h : (px - qx) * (2*X - (px + qx)) + (py - qy) * (2*Y - (py + qy)) = 0) :
    (px - X)*(px - X) + (py - Y)*(py - Y) =
      (qx - X)*(qx - X) + (qy - Y)*(qy - Y) := by
  linear_combination -h

theorem midpoint_pt (a b c d : ℚ) :
    point.midpoint (pt a b) (pt c d) = pt ((a + c)/2) ((b + d)/2) := by
  simp [point.midpoint, pt, F.div]

theorem slope_pinf_iff (a b c d : ℚ) :
    point.slope (pt a b) (pt c d) = pinf ↔ a = c := by
  constructor
  · intro h
    by_contra hne
    rw [slope_pt_of_ne b d hne] at h
    exact absurd h (by simp)
  · intro h; subst h; exact slope_pt_vertical a b d

theorem beq_fin_zero_false_ne {x : F} (h : F.beq x (fin 0) = false) : x ≠ fin 0 := by
  intro hx; subst hx; simp [F.beq] at h

theorem beq_slope_zero_iff (a b c d : ℚ) :
    F.beq (point.slope (pt a b) (pt c d)) (fin 0) = true ↔ (a ≠ c ∧ b = d) := by
  by_cases h : a = c
  · subst h
    rw [slope_pt_vertical]
    simp [F.beq]
  · rw [slope_pt_of_ne b d h]
    simp [F.beq, div_eq_zero_iff, sub_ne_zero_of_ne h, sub_eq_zero, h]

theorem dist_sq_pt (vx vy X Y : ℚ) :
    point.distance_squared (pt vx vy) ⟨fin X, fin Y⟩ =
      fin ((vx - X)*(vx - X) + (vy - Y)*(vy - Y)) := by
  simp [point.distance_squared, pt]

theorem contains_eq_lt_dist (s : circle) (p : point) :
    s.contains p = F.lt (point.distance_squared p s.center) s.radius := rfl

/-- Perpendicular-bisector data of an edge with rational endpoints and
non-horizontal slope: the computed perpendicular slope `-1/s` is a finite
rational `μ`, the intercept evaluates to `(py+qy)/2 - μ·(px+qx)/2`, and any
point on the resulting line is equidistant from the edge's endpoints. -/
theorem edge_data (px py qx qy : ℚ)
    (hS : point.slope (pt px py) (pt qx qy) ≠ fin 0) :
    ∃ μ : ℚ,
      F.div (fin (-1)) (point.slope (pt px py) (pt qx qy)) = fin μ ∧
      F.sub (point.midpoint (pt px py) (pt qx qy)).y
        (F.mul (F.div (fin (-1)) (point.slope (pt px py) (pt qx qy)))
          (point.midpoint (pt px py) (pt qx qy)).x) =
        fin ((py + qy)/2 - μ * ((px + qx)/2)) ∧
      ∀ X Y : ℚ, Y = μ * X + ((py + qy)/2 - μ * ((px + qx)/2)) →
        (px - X)*(px - X) + (py - Y)*(py - Y) =
          (qx - X)*(qx - X) + (qy - Y)*(qy - Y) := by
  by_cases hv : px = qx
  · subst hv
    refine ⟨0, ?_, ?_, ?_⟩
    · rw [slope_pt_vertical]; rfl
    · rw [slope_pt_vertical, midpoint_pt]
      show F.sub (fin ((py + qy)/2)) (F.mul (fin 0) (fin ((px + px)/2))) = _
      simp
    · intro X Y hY
      apply equidist_core
      rw [hY]; ring
  · have hs := slope_pt_of_ne py qy hv
    set s : ℚ := (py - qy) / (px - qx) with hsdef
    have hs0 : s ≠ 0 := by
      intro h0
      apply hS
      rw [hs, h0]
    have hpy : py ≠ qy := by
      intro h
      apply hs0
      rw [hsdef, h, sub_self, zero_div]
    refine ⟨(-1)/s, ?_, ?_, ?_⟩
    · rw [hs]
      simp [F.div, hs0]
    · rw [hs, midpoint_pt]
      show F.sub (fin ((py + qy)/2)) (F.mul (F.div (fin (-1)) (fin s)) (fin ((px + qx)/2))) = _
      simp [F.div, hs0]
    · intro X Y hY
      apply equidist_core
      have hkey : (py - qy) * ((-1)/s) = -(px - qx) := by
        rw [hsdef]
        field_simp
        rw [mul_comm, mul_div_assoc, div_self (sub_ne_zero_of_ne hpy), mul_one]
      rw [hY]
      linear_combination (2*X - (px + qx)) * hkey

theorem F.div_fin_fin (a b : ℚ) (hb : b ≠ 0) :
    F.div (fin a) (fin b) = fin (a / b) := by
  simp [F.div, hb]

theorem perp_inj {S1 S2 : F} (h1 : S1 ≠ fin 0) (h2 : S2 ≠ fin 0)
    (hk1 : (∃ q, S1 = fin q) ∨ S1 = pinf) (hk2 : (∃ q, S2 = fin q) ∨ S2 = pinf)
    (h : F.div (fin (-1)) S1 = F.div (fin (-1)) S2) : S1 = S2 := by
  rcases hk1 with ⟨q1, rfl⟩ | rfl <;> rcases hk2 with ⟨q2, rfl⟩ | rfl
  · have hq1 : q1 ≠ 0 := fun hh => h1 (by rw [hh])
    have hq2 : q2 ≠ 0 := fun hh => h2 (by rw [hh])
    rw [F.div_fin_fin _ _ hq1, F.div_fin_fin _ _ hq2] at h
    have h' : (-1 : ℚ)/q1 = (-1)/q2 := by simpa using h
    rw [div_eq_div_iff hq1 hq2] at h'
    have : q1 = q2 := by linarith
    rw [this]
  · have hq1 : q1 ≠ 0 := fun hh => h1 (by rw [hh])
    rw [F.div_fin_fin _ _ hq1] at h
    have h' : (-1 : ℚ)/q1 = 0 := by simpa [F.div] using h
    exact absurd h' (div_ne_zero (by norm_num) hq1)
  · have hq2 : q2 ≠ 0 := fun hh => h2 (by rw [hh])
    rw [F.div_fin_fin _ _ hq2] at h
    have h' : (-1 : ℚ)/q2 = 0 := by simpa [F.div] using h.symm
    exact absurd h' (div_ne_zero (by norm_num) hq2)
  · rfl

/-- The intersection of the two perpendicular bisectors computed by
`circumcircle` is a finite rational point equidistant from the endpoints of
each of the two chosen edges. -/
theorem circum_assemble (p1x p1y q1x q1y p2x p2y q2x q2y : ℚ)
    (hS1 : point.slope (pt p1x p1y) (pt q1x q1y) ≠ fin 0)
    (hS2 : point.slope (pt p2x p2y) (pt q2x q2y) ≠ fin 0)
    (hm : F.div (fin (-1)) (point.slope (pt p1x p1y) (pt q1x q1y)) ≠
          F.div (fin (-1)) (point.slope (pt p2x p2y) (pt q2x q2y))) :
    ∃ X Y : ℚ,
      F.div
        (F.sub
          (F.sub (point.midpoint (pt p2x p2y) (pt q2x q2y)).y
            (F.mul (F.div (fin (-1)) (point.slope (pt p2x p2y) (pt q2x q2y)))
              (point.midpoint (pt p2x p2y) (pt q2x q2y)).x))
          (F.sub (point.midpoint (pt p1x p1y) (pt q1x q1y)).y
            (F.mul (F.div (fin (-1)) (point.slope (pt p1x p1y) (pt q1x q1y)))
              (point.midpoint (pt p1x p1y) (pt q1x q1y)).x)))
        (F.sub (F.div (fin (-1)) (point.slope (pt p1x p1y) (pt q1x q1y)))
          (F.div (fin (-1)) (point.slope (pt p2x p2y) (pt q2x q2y)))) = fin X ∧
      F.add
        (F.mul (F.div (fin (-1)) (point.slope (pt p1x p1y) (pt q1x q1y))) (fin X))
        (F.sub (point.midpoint (pt p1x p1y) (pt q1x q1y)).y
          (F.mul (F.div (fin (-1)) (point.slope (pt p1x p1y) (pt q1x q1y)))
            (point.midpoint (pt p1x p1y) (pt q1x q1y)).x)) = fin Y ∧
      (p1x - X)*(p1x - X) + (p1y - Y)*(p1y - Y) =
        (q1x - X)*(q1x - X) + (q1y - Y)*(q1y - Y) ∧
      (p2x - X)*(p2x - X) + (p2y - Y)*(p2y - Y) =
        (q2x - X)*(q2x - X) + (q2y - Y)*(q2y - Y) := by
  obtain ⟨μ1, hd1, hb1, heq1⟩ := edge_data p1x p1y q1x q1y hS1
  obtain ⟨μ2, hd2, hb2, heq2⟩ := edge_data p2x p2y q2x q2y hS2
  have hμ : μ1 ≠ μ2 := by
    intro hh
    exact hm (by rw [hd1, hd2, hh])
  have hμ' : μ1 - μ2 ≠ 0 := sub_ne_zero_of_ne hμ
  set β1 : ℚ := (p1y + q1y)/2 - μ1 * ((p1x + q1x)/2) with hβ1
  set β2 : ℚ := (p2y + q2y)/2 - μ2 * ((p2x + q2x)/2) with hβ2
  refine ⟨(β2 - β1)/(μ1 - μ2), μ1 * ((β2 - β1)/(μ1 - μ2)) + β1, ?_, ?_, ?_, ?_⟩
  · rw [hb1, hb2, hd1, hd2]
    show F.div (F.sub (fin β2) (fin β1)) (F.sub (fin μ1) (fin μ2)) = _
    rw [F.sub_fin, F.sub_fin, F.div_fin_fin _ _ hμ']
  · rw [hb1, hd1]
    show F.add (F.mul (fin μ1) (fin ((β2 - β1)/(μ1 - μ2)))) (fin β1) = _
    rw [F.mul_fin, F.add_fin]
  · exact heq1 _ _ rfl
  · apply heq2
    field_simp
    ring
theorem slope_eq_shoelace_ac_bc (ax ay bx bz cx cy : ℚ)
    (h : point.slope (pt ax ay) (pt cx cy) = point.slope (pt bx bz) (pt cx cy)) :
    (bx - ax) * (cy - ay) - (cx - ax) * (bz - ay) = 0 := by
  by_cases h1 : ax = cx
  · have h2 : bx = cx := by
      rw [← slope_pinf_iff bx bz cx cy, ← h, slope_pinf_iff]
      exact h1
    rw [h1, h2]
    ring
  · by_cases h2 : bx = cx
    · rw [slope_pt_of_ne ay cy h1] at h
      rw [(slope_pinf_iff bx bz cx cy).2 h2] at h
      exact absurd h (by simp)
    · rw [slope_pt_of_ne ay cy h1, slope_pt_of_ne bz cy h2] at h
      have h' : (ay - cy) / (ax - cx) = (bz - cy) / (bx - cx) := by simpa using h
      rw [div_eq_div_iff (sub_ne_zero_of_ne h1) (sub_ne_zero_of_ne h2)] at h'
      linear_combination -h'

theorem slope_eq_shoelace_ab_ac (ax ay bx bz cx cy : ℚ)
    (h : point.slope (pt ax ay) (pt bx bz) = point.slope (pt ax ay) (pt cx cy)) :
    (bx - ax) * (cy - ay) - (cx - ax) * (bz - ay) = 0 := by
  by_cases h1 : ax = bx
  · have h2 : ax = cx := by
      rw [← slope_pinf_iff ax ay cx cy, ← h, slope_pinf_iff]
      exact h1
    rw [← h1, ← h2]
    ring
  · by_cases h2 : ax = cx
    · rw [slope_pt_of_ne ay bz h1] at h
      rw [(slope_pinf_iff ax ay cx cy).2 h2] at h
      exact absurd h (by simp)
    · rw [slope_pt_of_ne ay bz h1, slope_pt_of_ne ay cy h2] at h
      have h' : (ay - bz) / (ax - bx) = (ay - cy) / (ax - cx) := by simpa using h
      rw [div_eq_div_iff (sub_ne_zero_of_ne h1) (sub_ne_zero_of_ne h2)] at h'
      linear_combination -h'

theorem slope_eq_shoelace_ab_bc (ax ay bx bz cx cy : ℚ)
    (h : point.slope (pt ax ay) (pt bx bz) = point.slope (pt bx bz) (pt cx cy)) :
    (bx - ax) * (cy - ay) - (cx - ax) * (bz - ay) = 0 := by
  by_cases h1 : ax = bx
  · have h2 : bx = cx := by
      rw [← slope_pinf_iff bx bz cx cy, ← h, slope_pinf_iff]
      exact h1
    rw [← h1, h1.trans h2]
    ring
  · by_cases h2 : bx = cx
    · rw [slope_pt_of_ne ay bz h1] at h
      rw [(slope_pinf_iff bx bz cx cy).2 h2] at h
      exact absurd h (by simp)
    · rw [slope_pt_of_ne ay bz h1, slope_pt_of_ne bz cy h2] at h
      have h' : (ay - bz) / (ax - bx) = (bz - cy) / (bx - cx) := by simpa using h
      rw [div_eq_div_iff (sub_ne_zero_of_ne h1) (sub_ne_zero_of_ne h2)] at h'
      linear_combination -h'

theorem F.fmin_self (x : F) : F.fmin x x = x := by rw [F.fmin, ite_self]

/-- For a valid triangle the computed circumcircle has a finite rational
center equidistant from all three vertices, and its radius field is that
common squared distance. -/
theorem circumcircle_valid_spec {t : triangle} (h : t.valid = true) :
    ∃ X Y d : ℚ,
      t.circumcircle = ⟨⟨fin X, fin Y⟩, fin d⟩ ∧
      point.distance_squared t.a ⟨fin X, fin Y⟩ = fin d ∧
      point.distance_squared t.b ⟨fin X, fin Y⟩ = fin d ∧
      point.distance_squared t.c ⟨fin X, fin Y⟩ = fin d := by
  obtain ⟨ax, ay, bx, bz, cx, cy, rfl, hsh⟩ := valid_rat h
  by_cases h1 : F.beq (point.slope (pt ax ay) (pt bx bz)) (fin 0) = true
  · -- horizontal edge (a,b): bisectors of (a,c) and (b,c)
    obtain ⟨hne_ab, hay⟩ := (beq_slope_zero_iff _ _ _ _).1 h1
    have hS1 : point.slope (pt ax ay) (pt cx cy) ≠ fin 0 := by
      intro hz
      obtain ⟨_, hcy⟩ := (beq_slope_zero_iff ax ay cx cy).1 (by rw [hz]; simp [F.beq])
      exact hsh (by rw [← hay, ← hcy]; ring)
    have hS2 : point.slope (pt bx bz) (pt cx cy) ≠ fin 0 := by
      intro hz
      obtain ⟨_, hcy⟩ := (beq_slope_zero_iff bx bz cx cy).1 (by rw [hz]; simp [F.beq])
      exact hsh (by rw [← hay, hay.trans hcy]; ring)
    have hm : F.div (fin (-1)) (point.slope (pt ax ay) (pt cx cy)) ≠
        F.div (fin (-1)) (point.slope (pt bx bz) (pt cx cy)) := by
      intro he
      exact hsh (slope_eq_shoelace_ac_bc ax ay bx bz cx cy
        (perp_inj hS1 hS2 (slope_is_fin_or_pinf _ _ _ _)
          (slope_is_fin_or_pinf _ _ _ _) he))
    obtain ⟨X, Y, hX, hY, he1, he2⟩ :=
      circum_assemble ax ay cx cy bx bz cx cy hS1 hS2 hm
    refine ⟨X, Y, (ax - X)*(ax - X) + (ay - Y)*(ay - Y), ?_, ?_, ?_, ?_⟩
    · simp only [triangle.circumcircle, h, h1, Bool.not_true, Bool.false_eq_true,
        if_false, if_true]
      rw [hX, hY, dist_sq_pt, dist_sq_pt, dist_sq_pt,
        show (bx - X)*(bx - X) + (bz - Y)*(bz - Y) =
          (ax - X)*(ax - X) + (ay - Y)*(ay - Y) from he2.trans he1.symm,
        show (cx - X)*(cx - X) + (cy - Y)*(cy - Y) =
          (ax - X)*(ax - X) + (ay - Y)*(ay - Y) from he1.symm,
        F.fmin_self, F.fmin_self]
    · rw [dist_sq_pt]
    · rw [dist_sq_pt]
      exact congrArg fin (he2.trans he1.symm)
    · rw [dist_sq_pt]
      exact congrArg fin he1.symm
  · have h1' : F.beq (point.slope (pt ax ay) (pt bx bz)) (fin 0) = false :=
      Bool.eq_false_iff.mpr h1
    have hS1 : point.slope (pt ax ay) (pt bx bz) ≠ fin 0 := beq_fin_zero_false_ne h1'
    by_cases h2 : F.beq (point.slope (pt bx bz) (pt cx cy)) (fin 0) = true
    · -- horizontal edge (b,c): bisectors of (a,b) and (a,c)
      obtain ⟨hne_bc, hbz⟩ := (beq_slope_zero_iff _ _ _ _).1 h2
      have hS2 : point.slope (pt ax ay) (pt cx cy) ≠ fin 0 := by
        intro hz
        obtain ⟨_, hcy⟩ := (beq_slope_zero_iff ax ay cx cy).1 (by rw [hz]; simp [F.beq])
        exact hsh (by rw [← hcy, ← hbz.trans hcy.symm]; ring)
      have hm : F.div (fin (-1)) (point.slope (pt ax ay) (pt bx bz)) ≠
          F.div (fin (-1)) (point.slope (pt ax ay) (pt cx cy)) := by
        intro he
        exact hsh (slope_eq_shoelace_ab_ac ax ay bx bz cx cy
          (perp_inj hS1 hS2 (slope_is_fin_or_pinf _ _ _ _)
            (slope_is_fin_or_pinf _ _ _ _) he))
      obtain ⟨X, Y, hX, hY, he1, he2⟩ :=
        circum_assemble ax ay bx bz ax ay cx cy hS1 hS2 hm
      refine ⟨X, Y, (ax - X)*(ax - X) + (ay - Y)*(ay - Y), ?_, ?_, ?_, ?_⟩
      · simp only [triangle.circumcircle, h, h1', h2, Bool.not_true,
          Bool.false_eq_true, if_false, if_true]
        rw [hX, hY, dist_sq_pt, dist_sq_pt, dist_sq_pt,
          show (bx - X)*(bx - X) + (bz - Y)*(bz - Y) =
            (ax - X)*(ax - X) + (ay - Y)*(ay - Y) from he1.symm,
          show (cx - X)*(cx - X) + (cy - Y)*(cy - Y) =
            (ax - X)*(ax - X) + (ay - Y)*(ay - Y) from he2.symm,
          F.fmin_self, F.fmin_self]
      · rw [dist_sq_pt]
      · rw [dist_sq_pt]
        exact congrArg fin he1.symm
      · rw [dist_sq_pt]
        exact congrArg fin he2.symm
    · -- bisectors of (a,b) and (b,c)
      have h2' : F.beq (point.slope (pt bx bz) (pt cx cy)) (fin 0) = false :=
        Bool.eq_false_iff.mpr h2
      have hS2 : point.slope (pt bx bz) (pt cx cy) ≠ fin 0 := beq_fin_zero_false_ne h2'
      have hm : F.div (fin (-1)) (point.slope (pt ax ay) (pt bx bz)) ≠
          F.div (fin (-1)) (point.slope (pt bx bz) (pt cx cy)) := by
        intro he
        exact hsh (slope_eq_shoelace_ab_bc ax ay bx bz cx cy
          (perp_inj hS1 hS2 (slope_is_fin_or_pinf _ _ _ _)
            (slope_is_fin_or_pinf _ _ _ _) he))
      obtain ⟨X, Y, hX, hY, he1, he2⟩ :=
        circum_assemble ax ay bx bz bx bz cx cy hS1 hS2 hm
      refine ⟨X, Y, (ax - X)*(ax - X) + (ay - Y)*(ay - Y), ?_, ?_, ?_, ?_⟩
      · simp only [triangle.circumcircle, h, h1', h2', Bool.not_true,
          Bool.false_eq_true, if_false, if_true]
        rw [hX, hY, dist_sq_pt, dist_sq_pt, dist_sq_pt,
          show (bx - X)*(bx - X) + (bz - Y)*(bz - Y) =
            (ax - X)*(ax - X) + (ay - Y)*(ay - Y) from he1.symm,
          show (cx - X)*(cx - X) + (cy - Y)*(cy - Y) =
            (ax - X)*(ax - X) + (ay - Y)*(ay - Y) from (he1.trans he2).symm,
          F.fmin_self, F.fmin_self]
      · rw [dist_sq_pt]
      · rw [dist_sq_pt]
        exact congrArg fin he1.symm
      · rw [dist_sq_pt]
        exact congrArg fin (he1.trans he2).symm

/-- **C6.** For every valid triangle, the stored radius of the computed
circumcircle equals the minimum of the three squared distances from the
circumcenter to the vertices (in exact arithmetic all three are equal, so
the minimum is that common value), and consequently no vertex of the
triangle is classified as strictly interior to its own circumcircle. -/
theorem circumcircle_radius_min_and_excludes_vertices (t : triangle)
    (h : t.valid = true) :
    t.circumcircle.radius =
      F.fmin
        (F.fmin (point.distance_squared t.a t.circumcircle.center)
          (point.distance_squared t.b t.circumcircle.center))
        (point.distance_squared t.c t.circumcircle.center) ∧
    t.circumcircle.contains t.a = false ∧
    t.circumcircle.contains t.b = false ∧
    t.circumcircle.contains t.c = false := by
  obtain ⟨X, Y, d, hc, hda, hdb, hdc⟩ := circumcircle_valid_spec h
  simp only [hc, contains_eq_lt_dist]
  rw [hda, hdb, hdc, F.fmin_self, F.fmin_self]
  simp [F.lt]

/-- Witness for C6 at the right triangle `(0,0), (1,0), (0,1)`. -/
theorem circumcircle_radius_min_and_excludes_vertices_witness :
    (⟨pt 0 0, pt 1 0, pt 0 1⟩ : triangle).circumcircle.radius =
      F.fmin
        (F.fmin
          (point.distance_squared (pt 0 0)
            (⟨pt 0 0, pt 1 0, pt 0 1⟩ : triangle).circumcircle.center)
          (point.distance_squared (pt 1 0)
            (⟨pt 0 0, pt 1 0, pt 0 1⟩ : triangle).circumcircle.center))
        (point.distance_squared (pt 0 1)
          (⟨pt 0 0, pt 1 0, pt 0 1⟩ : triangle).circumcircle.center) ∧
    (⟨pt 0 0, pt 1 0, pt 0 1⟩ : triangle).circumcircle.contains (pt 0 0) = false ∧
    (⟨pt 0 0, pt 1 0, pt 0 1⟩ : triangle).circumcircle.contains (pt 1 0) = false ∧
    (⟨pt 0 0, pt 1 0, pt 0 1⟩ : triangle).circumcircle.contains (pt 0 1) = false :=
  circumcircle_radius_min_and_excludes_vertices ⟨pt 0 0, pt 1 0, pt 0 1⟩ (by decide)

/-- Witness for C7 at the triangle `((1,2), (0,+∞), (+∞,0))` and query
point `(0,0)`. -/
theorem halfplane_contains_matches_spec_witness :
    delaunay.halfplane_contains ⟨pt 1 2, symB, symC⟩ (pt 0 0) =
      halfplane_spec ⟨pt 1 2, symB, symC⟩ (pt 0 0) :=
  halfplane_contains_matches_spec ⟨pt 1 2, symB, symC⟩ (pt 0 0)
    ⟨0, 0, rfl⟩ (Or.inr (Or.inr (Or.inr ⟨1, 2, rfl⟩)))
    (Or.inr (Or.inl rfl)) (Or.inr (Or.inr (Or.inl rfl)))
    (by intro h; exact absurd h (by decide))
    (by intro h; exact absurd h (by decide))
    (by intro _ _; decide)

/-! ### Inputs with fewer than three points, and collinear inputs -/

theorem has_vertex_super {t : triangle} {v : point} (hs : isSuperV v)
    (hv : v = t.a ∨ v = t.b ∨ v = t.c) :
    (t.has_vertex delaunay.super_triangle.a ||
      t.has_vertex delaunay.super_triangle.b ||
      t.has_vertex delaunay.super_triangle.c) = true := by
  rcases hs with rfl | rfl | rfl <;> rcases hv with h | h | h <;>
    simp [triangle.has_vertex, ← h, point.eq, F.beq, delaunay.super_triangle,
      symA, symB, symC]

theorem filter_super_nil {T : List triangle}
    (h : ∀ t ∈ T, isSuperV t.a ∨ isSuperV t.b ∨ isSuperV t.c) :
    (T.filter (fun t =>
      !(t.has_vertex delaunay.super_triangle.a ||
        t.has_vertex delaunay.super_triangle.b ||
        t.has_vertex delaunay.super_triangle.c))) = [] := by
  rw [List.filter_eq_nil_iff]
  intro t ht
  rcases h t ht with hv | hv | hv
  · simp [has_vertex_super hv (Or.inl rfl)]
  · simp [has_vertex_super hv (Or.inr (Or.inl rfl))]
  · simp [has_vertex_super hv (Or.inr (Or.inr rfl))]

theorem insert_both_to_edge {T : List triangle} {p : point}
    (h : ∀ t ∈ T, bothSuper t) :
    ∀ t' ∈ delaunay.insertPoint T p, edgeSuper t' := by
  intro t' ht'
  rcases mem_insertPoint ht' with hmem | ⟨u, hu, _, e, he, rfl⟩
  · exact fun e he => Or.inl ((h t' hmem) e he).1
  · obtain ⟨hea, heb⟩ := (h u hu) e he
    intro e' he'
    simp only [triangle.edges, List.mem_cons, List.not_mem_nil, or_false] at he'
    rcases he' with rfl | rfl | rfl
    · exact Or.inl hea
    · exact Or.inl heb
    · exact Or.inl hea

theorem insert_edge_to_vtx {T : List triangle} {p : point}
    (h : ∀ t ∈ T, edgeSuper t) :
    ∀ t' ∈ delaunay.insertPoint T p,
      isSuperV t'.a ∨ isSuperV t'.b ∨ isSuperV t'.c := by
  intro t' ht'
  rcases mem_insertPoint ht' with hmem | ⟨u, hu, _, e, he, rfl⟩
  · have := (h t' hmem) ⟨t'.a, t'.b⟩ (by simp [triangle.edges])
    exact this.imp id Or.inl
  · have := (h u hu) e he
    exact this.imp id Or.inl

theorem super_both : ∀ t ∈ [delaunay.super_triangle], bothSuper t := by
  intro t ht
  rcases List.mem_singleton.1 ht with rfl
  intro e he
  simp only [triangle.edges, delaunay.super_triangle, List.mem_cons,
    List.not_mem_nil, or_false] at he
  rcases he with rfl | rfl | rfl
  · exact ⟨Or.inl rfl, Or.inr (Or.inl rfl)⟩
  · exact ⟨Or.inr (Or.inl rfl), Or.inr (Or.inr rfl)⟩
  · exact ⟨Or.inl rfl, Or.inr (Or.inr rfl)⟩

theorem short_input_empty {points : List point} (h : points.length < 3) :
    delaunay.triangulate points = [] := by
  rcases points with _ | ⟨p, _ | ⟨q, _ | ⟨r, rest⟩⟩⟩
  · decide
  · simp only [delaunay.triangulate, List.foldl_cons, List.foldl_nil]
    apply filter_super_nil
    intro t ht
    have := (insert_both_to_edge super_both) t ht ⟨t.a, t.b⟩ (by simp [triangle.edges])
    exact this.imp id Or.inl
  · simp only [delaunay.triangulate, List.foldl_cons, List.foldl_nil]
    exact filter_super_nil (insert_edge_to_vtx (insert_both_to_edge super_both))
  · simp only [List.length_cons] at h
    omega

theorem pt_ne_symA (qx qy : ℚ) : pt qx qy ≠ symA := by simp [pt, symA]

theorem pt_ne_symB (qx qy : ℚ) : pt qx qy ≠ symB := by simp [pt, symB]

theorem pt_ne_symC (qx qy : ℚ) : pt qx qy ≠ symC := by simp [pt, symC]

theorem pt_ne_superV {v : point} (hs : isSuperV v) (qx qy : ℚ) : pt qx qy ≠ v := by
  rcases hs with rfl | rfl | rfl
  exacts [pt_ne_symA qx qy, pt_ne_symB qx qy, pt_ne_symC qx qy]

theorem superV_finite_false {v : point} (hs : isSuperV v) : v.finite = false := by
  rcases hs with rfl | rfl | rfl <;> rfl

/-- If the single-finite-vertex half-plane block reports containment, the
query point differs from the finite vertex (all three boundary tests are
strict). -/
theorem hp1_true_ne (fx fy px py : ℚ) (v1 v2 : point)
    (h : delaunay.hp1 (pt fx fy) v1 v2 (pt px py) = true) :
    pt px py ≠ pt fx fy := by
  intro hpe
  have hxy : px = fx ∧ py = fy := by
    simpa [pt, point.mk.injEq] using hpe
  obtain ⟨rfl, rfl⟩ := hxy
  unfold delaunay.hp1 at h
  split_ifs at h <;>
    simp [pt, F.add, F.sub, F.neg, F.mul, F.div, F.lt] at h

/-- The key collinearity fact: a triangle with one infinite vertex and a
finite edge both of whose endpoints lie on the input line never reports a
query point of that same line as contained — every branch of the two-finite
half-plane block compares equal values (or matching infinities/NaN)
strictly. -/
theorem hp2_on_line_false (A B C : ℚ) (hAB : A ≠ 0 ∨ B ≠ 0) (f : point)
    (ux uy vx vy px py : ℚ)
    (hu : A * ux + B * uy = C) (hv : A * vx + B * vy = C)
    (hp : A * px + B * py = C) (hne : pt ux uy ≠ pt vx vy) :
    delaunay.hp2 f (pt ux uy) (pt vx vy) (pt px py) = false := by
  by_cases hux : ux = vx
  · -- vertical input line
    subst hux
    have huy : uy ≠ vy := by
      intro hh
      exact hne (by rw [hh])
    have hB : B = 0 := by
      have : B * (uy - vy) = 0 := by linarith
      rcases mul_eq_zero.1 this with h0 | h0
      · exact h0
      · exact absurd (sub_eq_zero.1 h0) huy
    have hA : A ≠ 0 := by
      rcases hAB with h0 | h0
      · exact h0
      · exact absurd hB h0
    have hpx : px = ux := by
      subst hB
      simp only [zero_mul, add_zero] at hu hp
      exact mul_left_cancel₀ hA (hp.trans hu.symm)
    subst hpx
    unfold delaunay.hp2
    rw [slope_pt_vertical]
    rcases lt_trichotomy 0 px with h0 | h0 | h0
    · simp [pt, F.mul, h0, F.sub, F.add, F.neg, F.lt, F.le, F.beq]
    · simp [pt, F.mul, ← h0, F.sub, F.add, F.neg, F.lt, F.le, F.beq]
    · simp [pt, F.mul, h0, not_lt_of_lt h0, F.sub, F.add, F.neg, F.lt, F.le,
        F.beq]
  · -- non-vertical input line
    have hB : B ≠ 0 := by
      intro h0
      subst h0
      have hA : A ≠ 0 := by
        rcases hAB with ha | hb
        · exact ha
        · exact absurd rfl hb
      simp only [zero_mul, add_zero] at hu hv
      exact hux (mul_left_cancel₀ hA (hu.trans hv.symm))
    rw [show delaunay.hp2 f (pt ux uy) (pt vx vy) (pt px py) =
      delaunay.hp2 f (pt ux uy) (pt vx vy) (pt px py) from rfl]
    unfold delaunay.hp2
    rw [slope_pt_of_ne uy vy hux]
    set s : ℚ := (uy - vy) / (ux - vx) with hsdef
    have hsv : s * (ux - vx) = uy - vy := by
      rw [hsdef]
      exact div_mul_cancel₀ _ (sub_ne_zero_of_ne hux)
    have h1 : B * (py - uy) = A * (ux - px) := by linarith
    have h2 : B * (uy - vy) = A * (vx - ux) := by linarith
    have h3 : (B * s + A) * (ux - vx) = 0 := by linear_combination B * hsv + h2
    have hBs : B * s + A = 0 := by
      rcases mul_eq_zero.1 h3 with h0 | h0
      · exact h0
      · exact absurd (sub_eq_zero.1 h0) hux
    have hkey : py - s * px = uy - s * ux := by
      have hB2 : B * (py - s * px) = B * (uy - s * ux) := by
        linear_combination h1 - (px - ux) * hBs
      exact mul_left_cancel₀ hB hB2
    show (if F.beq f.y pinf then _ else _) = false
    have hval : F.sub (pt px py).y (F.mul (fin s) (pt px py).x) =
        F.sub (pt ux uy).y (F.mul (fin s) (pt ux uy).x) := by
      show F.sub (fin py) (F.mul (fin s) (fin px)) =
        F.sub (fin uy) (F.mul (fin s) (fin ux))
      rw [F.mul_fin, F.mul_fin, F.sub_fin, F.sub_fin]
      exact congrArg fin hkey
    rw [hval]
    split_ifs <;> simp [pt, F.lt]

theorem valid_false_of_not_finite {t : triangle}
    (h : t.a.finite = false ∨ t.b.finite = false ∨ t.c.finite = false) :
    t.valid = false := by
  unfold triangle.valid
  rcases h with h | h | h <;> simp [h]

theorem isBad_halfplane {t : triangle} (hv : t.valid = false) (p : point) :
    delaunay.isBad t p = delaunay.halfplane_contains t p := by
  simp [delaunay.isBad, triangle.circumcircle, hv, circle.infinite, F.beq]

/-- Structure of a "bad" triangle during collinear insertion: it has at
least two super vertices, and when it has a finite vertex that vertex
differs from the inserted point. -/
theorem coll_bad_struct {A B C : ℚ} (hAB : A ≠ 0 ∨ B ≠ 0) {u : triangle}
    {p : point} (hinv : collTriangle A B C u) (hp : onLine A B C p)
    (hbad : delaunay.isBad u p = true) :
    (isSuperV u.a ∧ isSuperV u.b ∧ isSuperV u.c) ∨
    (isSuperV u.a ∧ isSuperV u.b ∧ u.c ≠ p) ∨
    (isSuperV u.a ∧ isSuperV u.c ∧ u.b ≠ p) ∨
    (isSuperV u.b ∧ isSuperV u.c ∧ u.a ≠ p) := by
  obtain ⟨ua, ub, uc⟩ := u
  obtain ⟨ha, hb, hc, hsup, hab, hac, hbc⟩ := hinv
  obtain ⟨px, py, rfl, hpl⟩ := hp
  simp only at ha hb hc hsup hab hac hbc hbad ⊢
  rcases ha with hsa | ⟨a1, a2, rfl, hal⟩ <;>
    rcases hb with hsb | ⟨b1, b2, rfl, hbl⟩ <;>
      rcases hc with hsc | ⟨c1, c2, rfl, hcl⟩
  · exact Or.inl ⟨hsa, hsb, hsc⟩
  · -- a, b super; c finite
    rw [isBad_halfplane
        (valid_false_of_not_finite (Or.inl (superV_finite_false hsa))),
      hp_one_finite_c (pt c1 c2) ua ub (pt px py) rfl
        (superV_finite_false hsa) (superV_finite_false hsb)] at hbad
    exact Or.inr (Or.inl ⟨hsa, hsb, (hp1_true_ne _ _ _ _ _ _ hbad).symm⟩)
  · -- a, c super; b finite
    rw [isBad_halfplane
        (valid_false_of_not_finite (Or.inl (superV_finite_false hsa))),
      hp_one_finite_b (pt b1 b2) ua uc (pt px py) rfl
        (superV_finite_false hsa) (superV_finite_false hsc)] at hbad
    exact Or.inr (Or.inr (Or.inl ⟨hsa, hsc, (hp1_true_ne _ _ _ _ _ _ hbad).symm⟩))
  · -- a super; b, c finite: never bad on the line
    rw [isBad_halfplane
        (valid_false_of_not_finite (Or.inl (superV_finite_false hsa))),
      hp_two_finite_a ua (pt b1 b2) (pt c1 c2) (pt px py)
        (superV_finite_false hsa) rfl rfl,
      hp2_on_line_false A B C hAB ua b1 b2 c1 c2 px py hbl hcl hpl hbc] at hbad
    exact absurd hbad (by simp)
  · -- b, c super; a finite
    rw [isBad_halfplane
        (valid_false_of_not_finite (Or.inr (Or.inl (superV_finite_false hsb)))),
      hp_one_finite_a (pt a1 a2) ub uc (pt px py) rfl
        (superV_finite_false hsb) (superV_finite_false hsc)] at hbad
    exact Or.inr (Or.inr (Or.inr ⟨hsb, hsc, (hp1_true_ne _ _ _ _ _ _ hbad).symm⟩))
  · -- b super; a, c finite
    rw [isBad_halfplane
        (valid_false_of_not_finite (Or.inr (Or.inl (superV_finite_false hsb)))),
      hp_two_finite_b ub (pt a1 a2) (pt c1 c2) (pt px py)
        (superV_finite_false hsb) rfl rfl,
      hp2_on_line_false A B C hAB ub a1 a2 c1 c2 px py hal hcl hpl hac] at hbad
    exact absurd hbad (by simp)
  · -- c super; a, b finite
    rw [isBad_halfplane
        (valid_false_of_not_finite (Or.inr (Or.inr (superV_finite_false hsc)))),
      hp_two_finite_c uc (pt a1 a2) (pt b1 b2) (pt px py)
        (superV_finite_false hsc) rfl rfl,
      hp2_on_line_false A B C hAB uc b1 b2 a1 a2 px py hbl hal hpl
        (Ne.symm hab)] at hbad
    exact absurd hbad (by simp)
  · -- no super vertex: contradicts the invariant
    exact absurd hsup (by simp [isSuperV, pt, symA, symB, symC])

theorem coll_insert_step {A B C : ℚ} (hAB : A ≠ 0 ∨ B ≠ 0)
    {T : List triangle} {p : point}
    (hT : ∀ t ∈ T, collTriangle A B C t) (hp : onLine A B C p) :
    ∀ t' ∈ delaunay.insertPoint T p, collTriangle A B C t' := by
  intro t' ht'
  rcases mem_insertPoint ht' with hmem | ⟨u, hu, hbad, e, he, rfl⟩
  · exact hT t' hmem
  · obtain ⟨ha, hb, hc, hsup, hab, hac, hbc⟩ := hT u hu
    have hstruct := coll_bad_struct hAB (hT u hu) hp hbad
    have hpne : ∀ v : point, isSuperV v → v ≠ p := by
      intro v hv hvp
      obtain ⟨px, py, rfl, _⟩ := hp
      exact pt_ne_superV hv px py hvp.symm
    simp only [triangle.edges, List.mem_cons, List.not_mem_nil, or_false] at he
    rcases he with rfl | rfl | rfl
    · refine ⟨ha, hb, Or.inr hp, ?_, hab, ?_, ?_⟩
      · rcases hstruct with ⟨h1, _, _⟩ | ⟨h1, _, _⟩ | ⟨h1, _, _⟩ | ⟨h1, _, _⟩
        exacts [Or.inl h1, Or.inl h1, Or.inl h1, Or.inr (Or.inl h1)]
      · rcases hstruct with ⟨h1, _, _⟩ | ⟨h1, _, _⟩ | ⟨h1, _, _⟩ | ⟨_, _, h3⟩
        exacts [hpne _ h1, hpne _ h1, hpne _ h1, h3]
      · rcases hstruct with ⟨_, h2, _⟩ | ⟨_, h2, _⟩ | ⟨_, _, h3⟩ | ⟨h1, _, _⟩
        exacts [hpne _ h2, hpne _ h2, h3, hpne _ h1]
    · refine ⟨hb, hc, Or.inr hp, ?_, hbc, ?_, ?_⟩
      · rcases hstruct with ⟨_, h2, _⟩ | ⟨_, h2, _⟩ | ⟨_, h2, _⟩ | ⟨h1, _, _⟩
        exacts [Or.inl h2, Or.inl h2, Or.inr (Or.inl h2), Or.inl h1]
      · rcases hstruct with ⟨_, h2, _⟩ | ⟨_, h2, _⟩ | ⟨_, _, h3⟩ | ⟨h1, _, _⟩
        exacts [hpne _ h2, hpne _ h2, h3, hpne _ h1]
      · rcases hstruct with ⟨_, _, h3⟩ | ⟨_, _, h3⟩ | ⟨_, h2, _⟩ | ⟨_, h2, _⟩
        exacts [hpne _ h3, h3, hpne _ h2, hpne _ h2]
    · refine ⟨ha, hc, Or.inr hp, ?_, hac, ?_, ?_⟩
      · rcases hstruct with ⟨h1, _, _⟩ | ⟨h1, _, _⟩ | ⟨h1, _, _⟩ | ⟨_, h2, _⟩
        exacts [Or.inl h1, Or.inl h1, Or.inl h1, Or.inr (Or.inl h2)]
      · rcases hstruct with ⟨h1, _, _⟩ | ⟨h1, _, _⟩ | ⟨h1, _, _⟩ | ⟨_, _, h3⟩
        exacts [hpne _ h1, hpne _ h1, hpne _ h1, h3]
      · rcases hstruct with ⟨_, _, h3⟩ | ⟨_, _, h3⟩ | ⟨_, h2, _⟩ | ⟨_, h2, _⟩
        exacts [hpne _ h3, h3, hpne _ h2, hpne _ h2]

theorem collinear_inv {A B C : ℚ} (hAB : A ≠ 0 ∨ B ≠ 0) :
    ∀ (pts : List point) (T : List triangle),
      (∀ p ∈ pts, onLine A B C p) → (∀ t ∈ T, collTriangle A B C t) →
      ∀ t ∈ pts.foldl delaunay.insertPoint T, collTriangle A B C t := by
  intro pts
  induction pts with
  | nil => exact fun T _ hT => hT
  | cons p rest ih =>
    intro T hpts hT t ht
    exact ih _ (fun q hq => hpts q (List.mem_cons_of_mem _ hq))
      (coll_insert_step hAB hT (hpts p (List.mem_cons_self _ _))) t ht

theorem collinear_empty {A B C : ℚ} (hAB : A ≠ 0 ∨ B ≠ 0)
    (points : List point) (hpts : ∀ p ∈ points, onLine A B C p) :
    delaunay.triangulate points = [] := by
  simp only [delaunay.triangulate]
  apply filter_super_nil
  intro t ht
  refine (collinear_inv hAB points [delaunay.super_triangle] hpts ?_ t ht).2.2.2.1
  intro u hu
  rcases List.mem_singleton.1 hu with rfl
  exact ⟨Or.inl (Or.inl rfl), Or.inl (Or.inr (Or.inl rfl)),
    Or.inl (Or.inr (Or.inr rfl)), Or.inl (Or.inl rfl),
    by decide, by decide, by decide⟩

/-- In this exact-rational embedding, an input with fewer than three points,
or an input all of whose points lie on one common line `A·x + B·y = C`,
produces an empty triangulation. This is a statement about the idealized
(rounding-free) model only: under 64-bit IEEE arithmetic the collinear half
can fail, because a non-representable edge slope (e.g. `11/20`) makes the
half-plane intercept comparison strict where exact arithmetic gives
equality, a triangle with one super vertex is then wrongly flagged bad, and
a degenerate all-collinear triangle survives to the output. The key lemma
`hp2_on_line_false` (a point of the line is never strictly on either side
of the line) therefore does not transfer to the compiled program. -/
theorem exact_model_small_or_collinear_empty (points : List point)
    (h : points.length < 3 ∨
      ∃ A B C : ℚ, (A ≠ 0 ∨ B ≠ 0) ∧ ∀ p ∈ points, onLine A B C p) :
    delaunay.triangulate points = [] := by
  rcases h with h | ⟨A, B, C, hAB, hpts⟩
  · exact short_input_empty h
  · exact collinear_empty hAB points hpts

/-- Instance of the exact-model lemma at `{(0,1), (1/2,1), (3/2,1)}`
(all on the horizontal line `y = 1`). -/
theorem exact_model_collinear_example :
    delaunay.triangulate [pt 0 1, pt (1/2) 1, pt (3/2) 1] = [] :=
  exact_model_small_or_collinear_empty _ (Or.inr ⟨0, 1, 1, Or.inr one_ne_zero, by
    intro p hp
    simp only [List.mem_cons, List.not_mem_nil, or_false] at hp
    rcases hp with rfl | rfl | rfl
    · exact ⟨0, 1, rfl, by norm_num⟩
    · exact ⟨1/2, 1, rfl, by norm_num⟩
    · exact ⟨3/2, 1, rfl, by norm_num⟩⟩)

end ClaimTheorems

end Geometry
